import Mathlib

/-!
Verification development for the syzkaller multi-factor scoring and
weighted-selection core.

Shallow embedding of:
* `pkg/fuzzer/time_stats.go`          (TimeStats)
* `pkg/fuzzer/kernel_log_matcher.go`  (KernelLogMatcher)
* `pkg/fuzzer/scoring.go`             (ScoreTracker, WeightedSelector)
* `pkg/flatrpc/scoring_extensions.go` (ScoreMetrics)

Conventions of the embedding:
* Go `float64` values are modelled as real numbers (`ℝ`); the log-matcher
  severities, which are all decimal constants combined by `max`, `+` and a
  clamp, are modelled as rationals (`ℚ`) so that concrete runs are decidable.
* Go `uint64`/`int64` counters are modelled as `Nat`/`Int` (they are only
  ever incremented from zero in this code, so no wrap-around is reachable).
* Go maps are modelled either as association lists (where iteration order
  matters for the algorithm, e.g. the weight map feeding the rebuild loop)
  or as total functions with default `0` (pure counter tables).
* Mutation is modelled by explicit state passing: a method that mutates its
  receiver returns the updated state.
* A Go runtime panic (`make` with negative capacity) is modelled by an
  `Option` result, `none` standing for the panic.
* The regular expressions in the default kernel-log pattern table are all of
  the shape `lit₁.*` or `lit₁.*lit₂.*`; unanchored Go `MatchString` for such
  a pattern holds iff `lit₁` occurs in the line and `lit₂` occurs after it.
  `matchLits` implements exactly that search on character lists.
-/

open MeasureTheory

/- Batteries marks the `Rat` field operations `@[irreducible]`, which blocks
elaborator-side evaluation of concrete rational runs of the log matcher.
Restoring the default reducibility (a purely elaboration-side setting) lets
`decide`/`rfl` evaluate them; it does not change any definition. -/
set_option allowUnsafeReducibility true
attribute [semireducible] Rat.ofScientific Rat.mul Rat.inv Rat.add Rat.sub Rat.div

namespace SyzScoring

/-! ### TimeStats (`pkg/fuzzer/time_stats.go`) -/

/-- State of the execution-time statistics (`TimeStats`, time_stats.go:12-31).
The mutex is dropped; everything else is carried verbatim. -/
structure TimeStats where
  samples : List Nat
  mean : ℝ
  variance : ℝ
  stdDev : ℝ
  count : Int
  needRecalc : Bool
  maxSamples : Nat

/-- `NewTimeStats` (time_stats.go:34-40). -/
def NewTimeStats : TimeStats :=
  { samples := [], mean := 0, variance := 0, stdDev := 0,
    count := 0, needRecalc := true, maxSamples := 10000 }

/-- `AddSample` (time_stats.go:43-57).  The Go compaction does
`copy(samples, samples[maxSamples/2:]); samples = samples[:maxSamples/2]`,
i.e. it keeps the slice `samples[maxSamples/2 : maxSamples]` of the
post-append buffer, which is `(drop (maxSamples/2)).take (maxSamples/2)`. -/
def AddSample (ts : TimeStats) (execTime : Nat) : TimeStats :=
  let ts1 : TimeStats :=
    { ts with samples := ts.samples ++ [execTime], count := ts.count + 1,
              needRecalc := true }
  if ts1.samples.length > ts1.maxSamples then
    { ts1 with samples := (ts1.samples.drop (ts1.maxSamples / 2)).take (ts1.maxSamples / 2) }
  else ts1

/-- `recalculateStats` (time_stats.go:92-116): mean, population variance and
standard deviation of the current sample buffer; returns unchanged (dirty
flag included) when the buffer is empty. -/
noncomputable def recalculateStats (ts : TimeStats) : TimeStats :=
  if ts.samples = [] then ts
  else
    let n : ℝ := (ts.samples.length : ℝ)
    let m : ℝ := ((ts.samples.sum : ℕ) : ℝ) / n
    let v : ℝ := ((ts.samples.map fun s => ((s : ℝ) - m) * ((s : ℝ) - m)).sum) / n
    { ts with mean := m, variance := v, stdDev := Real.sqrt v, needRecalc := false }

/-- `CalculateAnomalyScore` (time_stats.go:60-89).  The read-lock upgrade
dance collapses to: recompute when dirty, then score against the (possibly
recomputed) statistics. -/
noncomputable def CalculateAnomalyScore (ts : TimeStats) (execTime : Nat) : ℝ :=
  if ts.count < 10 then 0
  else
    let ts1 := if ts.needRecalc then recalculateStats ts else ts
    if ts1.stdDev = 0 then 0
    else min ((|(execTime : ℝ) - ts1.mean| / ts1.stdDev) / 2) 1

/-! ### KernelLogMatcher (`pkg/fuzzer/kernel_log_matcher.go`) -/

/-- Whitespace test used by the model of `strings.TrimSpace`
(space, tab, newline, carriage return). -/
def isSpaceChar (c : Char) : Bool :=
  c.toNat == 32 || c.toNat == 9 || c.toNat == 10 || c.toNat == 13

/-- Model of `strings.TrimSpace` on a character list. -/
def trimSpace (s : List Char) : List Char :=
  ((s.dropWhile isSpaceChar).reverse.dropWhile isSpaceChar).reverse

/-- Does `hay` start with `needle`? -/
def startsWithL : List Char → List Char → Bool
  | [], _ => true
  | _ :: _, [] => false
  | a :: as, b :: bs => a == b && startsWithL as bs

/-- Scan `hay` for the first occurrence of `needle`; on success return the
remainder of `hay` after that occurrence. -/
def findAfter (needle : List Char) : List Char → Option (List Char)
  | [] => if startsWithL needle [] then some (List.drop needle.length []) else none
  | c :: t =>
    if startsWithL needle (c :: t) then some ((c :: t).drop needle.length)
    else findAfter needle t

/-- Unanchored match of the pattern `lit₁.*lit₂.*…` against a line:
each literal occurs, in order, non-overlapping. -/
def matchLits : List (List Char) → List Char → Bool
  | [], _ => true
  | lit :: rest, hay =>
    match findAfter lit hay with
    | none => false
    | some rem => matchLits rest rem

/-- `LogPattern` (kernel_log_matcher.go:13-20); the compiled regexp is
represented by its literal sequence (see the header comment). -/
structure LogPattern where
  Pattern : List String
  Score : ℚ
  Description : String

/-- The default pattern table built by `initializePatterns`
(kernel_log_matcher.go:38-108), in source order.  Every regex there is of
the shape `lit.*` or `lit₁.*lit₂.*`, written here as its literal list. -/
def initializePatterns : List LogPattern :=
  [ ⟨["KASAN:"], 1, "KASAN memory error"⟩,
    ⟨["AddressSanitizer:"], 1, "AddressSanitizer error"⟩,
    ⟨["kernel BUG at"], 9/10, "Kernel BUG"⟩,
    ⟨["Kernel panic"], 9/10, "Kernel panic"⟩,
    ⟨["Oops:"], 8/10, "Kernel Oops"⟩,
    ⟨["general protection fault"], 8/10, "General protection fault"⟩,
    ⟨["page fault"], 7/10, "Page fault"⟩,
    ⟨["double fault"], 9/10, "Double fault"⟩,
    ⟨["stack segment"], 8/10, "Stack segment fault"⟩,
    ⟨["possible deadlock"], 7/10, "Possible deadlock"⟩,
    ⟨["lockdep"], 6/10, "Lockdep warning"⟩,
    ⟨["sleeping function called from invalid context"], 6/10, "Invalid sleep context"⟩,
    ⟨["rcu_", "stall"], 6/10, "RCU stall"⟩,
    ⟨["RCU"], 5/10, "RCU related"⟩,
    ⟨["WARNING:"], 5/10, "Kernel warning"⟩,
    ⟨["WARN_ON"], 5/10, "WARN_ON triggered"⟩,
    ⟨["memory leak"], 6/10, "Memory leak"⟩,
    ⟨["refcount_t"], 6/10, "Reference count error"⟩,
    ⟨["EXT4-fs error"], 4/10, "EXT4 filesystem error"⟩,
    ⟨["XFS", "error"], 4/10, "XFS filesystem error"⟩,
    ⟨["net", "warning"], 3/10, "Network warning"⟩,
    ⟨["TCP", "error"], 3/10, "TCP error"⟩,
    ⟨["device", "error"], 3/10, "Device error"⟩,
    ⟨["driver", "warning"], 2/10, "Driver warning"⟩,
    ⟨["ERROR:"], 4/10, "General error"⟩,
    ⟨["error"], 2/10, "Generic error"⟩ ]

/-- Does `p`'s pattern match the (already trimmed) line? -/
def patternMatches (p : LogPattern) (line : List Char) : Bool :=
  matchLits (p.Pattern.map String.toList) line

/-- Inner pattern loop of `CalculateScore` (kernel_log_matcher.go:129-141)
for one line: carries `(maxScore, matchedPatterns)`; a category (keyed by its
description) contributes at most once. -/
def scanLine (acc : ℚ × List String) (line : List Char) : ℚ × List String :=
  initializePatterns.foldl
    (fun a p =>
      if patternMatches p line && !(a.2.contains p.Description) then
        (if a.1 < p.Score then p.Score else a.1, p.Description :: a.2)
      else a)
    acc

/-- `CalculateScore` (kernel_log_matcher.go:111-158): max severity over
matched categories, plus `0.1 × (distinct categories − 1)` when more than
one matched, clamped to 1. -/
def CalculateScore (logs : List String) : ℚ :=
  if logs = [] then 0
  else
    let r := logs.foldl
      (fun acc log =>
        let line := trimSpace log.toList
        if line = [] then acc else scanLine acc line)
      ((0 : ℚ), ([] : List String))
    let bonus : ℚ := if 1 < r.2.length then ((r.2.length : ℚ) - 1) * (1/10) else 0
    let total := r.1 + bonus
    if 1 < total then 1 else total

/-! ### ScoreTracker (`pkg/fuzzer/scoring.go`) -/

/-- `ScoreConfig` (scoring.go:16-27). -/
structure ScoreConfig where
  CoverageWeight : ℝ
  RarityWeight : ℝ
  KernelLogWeight : ℝ
  TimeAnomalyWeight : ℝ
  Enabled : Bool

/-- `DefaultScoreConfig` (scoring.go:30-38). -/
noncomputable def DefaultScoreConfig : ScoreConfig :=
  { CoverageWeight := 4/10, RarityWeight := 3/10, KernelLogWeight := 2/10,
    TimeAnomalyWeight := 1/10, Enabled := true }

/-- `ProgScore` (scoring.go:41-54); the timestamp is outside the model. -/
structure ProgScore where
  Total : ℝ
  Coverage : ℝ
  Rarity : ℝ
  KernelLog : ℝ
  TimeAnomaly : ℝ

/-- `ExecutionResult` (scoring.go:265-276).  A `nil` and an empty signal are
behaviourally identical in the source, so the signal is one list; the
signal's `String()` signature is represented by the raw element list. -/
structure ExecutionResult where
  Signal : List Nat
  ExecTime : Nat
  KernelLogs : List String
  Crashed : Bool
  Error : String

/-- `ScoreTracker` state (scoring.go:57-77): score cache as an association
list (Go map iteration order is arbitrary anyway), counter maps as total
functions with default `0`. -/
structure ScoreTracker where
  scores : List (String × ProgScore)
  pcHitCounts : Nat → Int
  pathFrequency : List Nat → Int
  execTimeStats : TimeStats
  config : ScoreConfig

/-- Association-list upsert modelling `m[k] = v` on a Go map. -/
def insertAssoc {β : Type} : List (String × β) → String → β → List (String × β)
  | [], k, v => [(k, v)]
  | (k', v') :: rest, k, v =>
    if k' = k then (k, v) :: rest else (k', v') :: insertAssoc rest k v

/-- The PC loop of `calculateCoverageScore` (scoring.go:159-164): walks the
signal, counts elements whose hit count is zero at the moment of the visit,
and increments each element's hit count. -/
def coverFold : (Nat → Int) → List Nat → Nat × (Nat → Int)
  | counts, [] => (0, counts)
  | counts, pc :: rest =>
    let isNew : Nat := if counts pc = 0 then 1 else 0
    let p := coverFold (fun q => if q = pc then counts q + 1 else counts q) rest
    (isNew + p.1, p.2)

/-- `calculateCoverageScore` (scoring.go:150-177); returns the score and the
updated hit-count table. -/
noncomputable def calculateCoverageScore (counts : Nat → Int) (r : ExecutionResult) :
    ℝ × (Nat → Int) :=
  if r.Signal = [] then (0, counts)
  else
    let p := coverFold counts r.Signal
    if r.Signal.length = 0 then (0, p.2)
    else
      let frac : ℝ := (p.1 : ℝ) / (r.Signal.length : ℝ)
      (min (Real.log (1 + frac * Real.exp 1) / Real.log (1 + Real.exp 1)) 1, p.2)

/-- Frequency-to-rarity map inside `calculateRarityScore`
(scoring.go:188-196). -/
noncomputable def rarityOfFreq (frequency : Int) : ℝ :=
  if frequency = 0 then 1
  else min (1 / (1 + Real.log ((frequency : ℝ)))) 1

/-- `calculateRarityScore` (scoring.go:180-197). -/
noncomputable def calculateRarityScore (pathFrequency : List Nat → Int)
    (r : ExecutionResult) : ℝ :=
  if r.Signal = [] then 0 else rarityOfFreq (pathFrequency r.Signal)

/-- `calculateKernelLogScore` (scoring.go:200-206). -/
noncomputable def calculateKernelLogScore (r : ExecutionResult) : ℝ :=
  if r.KernelLogs = [] then 0 else ((CalculateScore r.KernelLogs : ℚ) : ℝ)

/-- `calculateTimeAnomalyScore` (scoring.go:209-215). -/
noncomputable def calculateTimeAnomalyScore (ts : TimeStats) (r : ExecutionResult) : ℝ :=
  if r.ExecTime = 0 then 0 else CalculateAnomalyScore ts r.ExecTime

/-- `updateStatistics` (scoring.go:218-229): bump the path-frequency counter
of the signal signature, then feed the elapsed time into the time stats. -/
def updateStatistics (st : ScoreTracker) (r : ExecutionResult) : ScoreTracker :=
  let st1 :=
    if r.Signal = [] then st
    else { st with pathFrequency :=
             fun s => if s = r.Signal then st.pathFrequency s + 1 else st.pathFrequency s }
  if 0 < r.ExecTime then { st1 with execTimeStats := AddSample st1.execTimeStats r.ExecTime }
  else st1

/-- `UpdateScore` (scoring.go:96-133).  Disabled: fixed neutral score and
untouched state.  Enabled: the four dimensions are computed against the
pre-call statistics (coverage folds the hit counts as it reads them), the
weighted total is cached under the program hash, and only then are the
shared statistics updated. -/
noncomputable def UpdateScore (st : ScoreTracker) (progHash : String)
    (r : ExecutionResult) : ScoreTracker × ProgScore :=
  if st.config.Enabled then
    let cov := calculateCoverageScore st.pcHitCounts r
    let rarity := calculateRarityScore st.pathFrequency r
    let klog := calculateKernelLogScore r
    let tanom := calculateTimeAnomalyScore st.execTimeStats r
    let total := st.config.CoverageWeight * cov.1 + st.config.RarityWeight * rarity +
      st.config.KernelLogWeight * klog + st.config.TimeAnomalyWeight * tanom
    let score : ProgScore :=
      { Total := total, Coverage := cov.1, Rarity := rarity,
        KernelLog := klog, TimeAnomaly := tanom }
    let st1 : ScoreTracker :=
      { st with pcHitCounts := cov.2, scores := insertAssoc st.scores progHash score }
    (updateStatistics st1 r, score)
  else (st, { Total := 1/2, Coverage := 0, Rarity := 0, KernelLog := 0, TimeAnomaly := 0 })

/-- Inner exchange pass of the sort in `GetTopScoredProgs`
(scoring.go:247-253): compare the running element with each later element,
swapping when the later one scores higher; returns the maximum and the
remaining elements in their post-pass order. -/
noncomputable def passMax : (String × ℝ) → List (String × ℝ) →
    (String × ℝ) × List (String × ℝ)
  | a, [] => (a, [])
  | a, b :: rest =>
    if a.2 < b.2 then
      let p := passMax b rest
      (p.1, a :: p.2)
    else
      let p := passMax a rest
      (p.1, b :: p.2)

/-- Outer loop of the exchange sort, fueled by the list length (each outer
iteration fixes one position, so `length` iterations suffice). -/
noncomputable def exchangeSortFuel : Nat → List (String × ℝ) → List (String × ℝ)
  | 0, l => l
  | _ + 1, [] => []
  | n + 1, a :: rest =>
    let p := passMax a rest
    p.1 :: exchangeSortFuel n p.2

/-- The descending exchange sort of `GetTopScoredProgs` (scoring.go:246-253). -/
noncomputable def exchangeSort (l : List (String × ℝ)) : List (String × ℝ) :=
  exchangeSortFuel l.length l

/-- `GetTopScoredProgs` (scoring.go:232-262).  `make([]string, 0, limit)`
panics in Go when `limit < 0`; the panic is modelled as `none`. -/
noncomputable def GetTopScoredProgs (scores : List (String × ProgScore)) (limit : Int) :
    Option (List String) :=
  if limit < 0 then none
  else some (((exchangeSort (scores.map fun p => (p.1, p.2.Total))).map Prod.fst).take
    limit.toNat)

/-! ### WeightedSelector (`pkg/fuzzer/scoring.go:279-354`) -/

/-- `WeightedSelector` state (scoring.go:279-291); the weight map is an
association list whose order models the Go map's iteration order. -/
structure WeightedSelector where
  weights : List (String × ℝ)
  cumulativeWeights : List ℝ
  progHashes : List String
  needRebuild : Bool

/-- `NewWeightedSelector` (scoring.go:294-299). -/
def NewWeightedSelector : WeightedSelector :=
  { weights := [], cumulativeWeights := [], progHashes := [], needRebuild := true }

/-- `UpdateWeight` (scoring.go:302-308). -/
def UpdateWeight (ws : WeightedSelector) (progHash : String) (weight : ℝ) :
    WeightedSelector :=
  { ws with weights := insertAssoc ws.weights progHash weight, needRebuild := true }

/-- The rebuild loop of `rebuildWeightTable` (scoring.go:344-351): keep the
entries with positive weight, recording running cumulative sums and the
matching hashes. -/
noncomputable def rebuildAux (cumulative : ℝ) : List (String × ℝ) → List ℝ × List String
  | [] => ([], [])
  | (h, w) :: rest =>
    if 0 < w then
      let p := rebuildAux (cumulative + w) rest
      ((cumulative + w) :: p.1, h :: p.2)
    else rebuildAux cumulative rest

/-- `rebuildWeightTable` (scoring.go:340-354). -/
noncomputable def rebuildWeightTable (ws : WeightedSelector) : WeightedSelector :=
  let p := rebuildAux 0 ws.weights
  { ws with cumulativeWeights := p.1, progHashes := p.2, needRebuild := false }

/-- The binary search of `SelectWeighted` (scoring.go:326-334). -/
noncomputable def bsearchLoop (cum : List ℝ) (target : ℝ) : Nat → Nat → Nat
  | left, right =>
    if _h : left < right then
      let mid := (left + right) / 2
      if cum.getD mid 0 < target then bsearchLoop cum target (mid + 1) right
      else bsearchLoop cum target left mid
    else left
termination_by left right => right - left
decreasing_by all_goals omega

/-- `SelectWeighted` (scoring.go:311-337): lazy rebuild, empty-table guard,
then inverse-CDF binary search on `target = rnd × totalWeight`.  Returns the
updated selector together with the chosen hash. -/
noncomputable def SelectWeighted (ws : WeightedSelector) (rnd : ℝ) :
    WeightedSelector × String :=
  let ws1 := if ws.needRebuild then rebuildWeightTable ws else ws
  if ws1.cumulativeWeights.length = 0 then (ws1, "")
  else
    let target := rnd * ws1.cumulativeWeights.getD (ws1.cumulativeWeights.length - 1) 0
    let idx := bsearchLoop ws1.cumulativeWeights target 0 (ws1.cumulativeWeights.length - 1)
    (ws1, ws1.progHashes.getD idx "")

/-- One whole weighted draw against a raw weight map (a fresh selector whose
derived index is stale, exactly the state after any `UpdateWeight`). -/
noncomputable def selectFromWeights (w : List (String × ℝ)) (u : ℝ) : String :=
  (SelectWeighted ⟨w, [], [], true⟩ u).2

/-- The positive-weight entries of a weight map, in iteration order. -/
noncomputable def posPairs (w : List (String × ℝ)) : List (String × ℝ) :=
  w.filter fun p => decide (0 < p.2)

/-- Sum of the positive weights of a weight map. -/
noncomputable def posTotal (w : List (String × ℝ)) : ℝ :=
  ((posPairs w).map Prod.snd).sum

/-- Running cumulative sums used to reason about `rebuildAux`. -/
noncomputable def cumList (c : ℝ) : List ℝ → List ℝ
  | [] => []
  | w :: rest => (c + w) :: cumList (c + w) rest

/-! ### ScoreMetrics (`pkg/flatrpc/scoring_extensions.go`) -/

/-- `ScoreMetrics` (scoring_extensions.go:185-218); the `LastUpdated`
timestamp is outside the model. -/
structure ScoreMetrics where
  TotalRequests : Int
  ScoreSelectedRequests : Int
  AverageScore : ℝ
  MaxScore : ℝ
  MinScore : ℝ
  AvgCoverageScore : ℝ
  AvgRarityScore : ℝ
  AvgKernelLogScore : ℝ
  AvgTimeAnomalyScore : ℝ
  TotalScoreCalculationTime : Int
  TotalSmashJobs : Int
  TotalSmashMutations : Int
  SuccessfulMutations : Int
  AverageSmashBaseScore : ℝ

/-- `UpdateMetrics` (scoring_extensions.go:229-253). -/
noncomputable def UpdateMetrics (sm : ScoreMetrics) (score : ℝ) (scoreSelected : Bool)
    (calculationTime : Int) : ScoreMetrics :=
  let sm1 := { sm with TotalRequests := sm.TotalRequests + 1 }
  let sm2 := if scoreSelected then
      { sm1 with ScoreSelectedRequests := sm1.ScoreSelectedRequests + 1 }
    else sm1
  let sm3 :=
    if sm2.TotalRequests = 1 then
      { sm2 with AverageScore := score, MaxScore := score, MinScore := score }
    else
      let sm2a := { sm2 with AverageScore :=
        (sm2.AverageScore * ((sm2.TotalRequests : ℝ) - 1) + score) / (sm2.TotalRequests : ℝ) }
      let sm2b := if sm2a.MaxScore < score then { sm2a with MaxScore := score } else sm2a
      if score < sm2b.MinScore then { sm2b with MinScore := score } else sm2b
  { sm3 with TotalScoreCalculationTime := sm3.TotalScoreCalculationTime + calculationTime }

/-- `UpdateDimensionScores` (scoring_extensions.go:256-269): the incremental
branch divides by `TotalRequests` with no zero check. -/
noncomputable def UpdateDimensionScores (sm : ScoreMetrics)
    (coverage rarity kernelLog timeAnomaly : ℝ) : ScoreMetrics :=
  if sm.TotalRequests = 1 then
    { sm with AvgCoverageScore := coverage, AvgRarityScore := rarity,
              AvgKernelLogScore := kernelLog, AvgTimeAnomalyScore := timeAnomaly }
  else
    { sm with
      AvgCoverageScore :=
        (sm.AvgCoverageScore * ((sm.TotalRequests : ℝ) - 1) + coverage) / (sm.TotalRequests : ℝ),
      AvgRarityScore :=
        (sm.AvgRarityScore * ((sm.TotalRequests : ℝ) - 1) + rarity) / (sm.TotalRequests : ℝ),
      AvgKernelLogScore :=
        (sm.AvgKernelLogScore * ((sm.TotalRequests : ℝ) - 1) + kernelLog) / (sm.TotalRequests : ℝ),
      AvgTimeAnomalyScore :=
        (sm.AvgTimeAnomalyScore * ((sm.TotalRequests : ℝ) - 1) + timeAnomaly) / (sm.TotalRequests : ℝ) }

/-! ### Concrete states shared by witnesses and counterexamples -/

/-- A tracker with scoring enabled and all statistics empty. -/
noncomputable def trackerEnabled : ScoreTracker :=
  { scores := [], pcHitCounts := fun _ => 0, pathFrequency := fun _ => 0,
    execTimeStats := NewTimeStats, config := DefaultScoreConfig }

/-- A tracker with scoring disabled. -/
noncomputable def trackerDisabled : ScoreTracker :=
  { trackerEnabled with config :=
      { CoverageWeight := 4/10, RarityWeight := 3/10, KernelLogWeight := 2/10,
        TimeAnomalyWeight := 1/10, Enabled := false } }

/-- A tracker whose path-frequency table has seen the signature `[5]` once. -/
noncomputable def trackerFreq : ScoreTracker :=
  { trackerEnabled with pathFrequency := fun s => if s = [5] then 1 else 0 }

/-- An outcome whose signal signature is `[5]` (seen once by `trackerFreq`). -/
def outcomeSig5 : ExecutionResult :=
  { Signal := [5], ExecTime := 0, KernelLogs := [], Crashed := false, Error := "" }

/-- An outcome whose signal signature is `[6]` (never seen by `trackerFreq`). -/
def outcomeSig6 : ExecutionResult :=
  { Signal := [6], ExecTime := 0, KernelLogs := [], Crashed := false, Error := "" }

/-- An outcome with the single fresh coverage element `7`. -/
def outcomeSig7 : ExecutionResult :=
  { Signal := [7], ExecTime := 0, KernelLogs := [], Crashed := false, Error := "" }

/-- A time-stats state holding two samples with capacity two. -/
def tsTwo : TimeStats :=
  { samples := [1, 2], mean := 0, variance := 0, stdDev := 0,
    count := 2, needRecalc := false, maxSamples := 2 }

/-- The all-zero metrics record (fresh counters, before any request). -/
def metricsZero : ScoreMetrics :=
  { TotalRequests := 0, ScoreSelectedRequests := 0, AverageScore := 0, MaxScore := 0,
    MinScore := 0, AvgCoverageScore := 0, AvgRarityScore := 0, AvgKernelLogScore := 0,
    AvgTimeAnomalyScore := 0, TotalScoreCalculationTime := 0, TotalSmashJobs := 0,
    TotalSmashMutations := 0, SuccessfulMutations := 0, AverageSmashBaseScore := 0 }

/-- Metrics after exactly one request has been recorded. -/
def metricsOne : ScoreMetrics :=
  { metricsZero with TotalRequests := 1 }

/-- A two-entry weight map with weights `1` and `3`. -/
noncomputable def weightsEx : List (String × ℝ) := [("a", 1), ("b", 3)]

/-- A selector whose raw map holds one positive-weight and one
negative-weight entry, with a stale derived index. -/
noncomputable def selEx : WeightedSelector :=
  { weights := [("a", 2), ("z", -1)], cumulativeWeights := [], progHashes := [],
    needRebuild := true }

/-! ## Theorems -/

/-- **C2.**  With `Enabled = false`, `UpdateScore` returns the fixed neutral
score `{Total := 0.5}` with every dimension unset (zero), and the returned
tracker is literally the argument tracker: the scores cache, `pcHitCounts`,
`pathFrequency` and the time-statistics sample buffer are all unchanged. -/
theorem scoring_C2 (st : ScoreTracker) (p : String) (r : ExecutionResult)
    (hdis : st.config.Enabled = false) :
    UpdateScore st p r =
      (st, { Total := 1/2, Coverage := 0, Rarity := 0, KernelLog := 0, TimeAnomaly := 0 }) := by
  simp [UpdateScore, hdis]

/-- Witness for C2 at a concrete disabled tracker. -/
theorem scoring_C2_witness :
    trackerDisabled.config.Enabled = false ∧
      UpdateScore trackerDisabled "p" outcomeSig7 =
        (trackerDisabled,
          { Total := 1/2, Coverage := 0, Rarity := 0, KernelLog := 0, TimeAnomaly := 0 }) :=
  ⟨rfl, scoring_C2 trackerDisabled "p" outcomeSig7 rfl⟩

/-- **C5, counterexample.**  Under the default pattern table,
`CalculateScore ["WARNING: x", "possible deadlock"]` is not `0.6`: the
source gives `possible deadlock.*` severity `0.7` (not `0.5`), so the run
returns `0.7 + 0.1 = 0.8`. -/
theorem scoring_C5_cex :
    CalculateScore ["WARNING: x", "possible deadlock"] ≠ (6/10 : ℚ) := by decide

/-- **C5, amended.**  The four concrete runs of the default-table matcher:
the first three agree with the claim, and the fourth returns `0.8`
(`max(0.5, 0.7) + 0.1`), not `0.6`. -/
theorem scoring_C5 :
    CalculateScore ["KASAN: use-after-free in foo"] = 1 ∧
    CalculateScore ["normal log message"] = 0 ∧
    CalculateScore ["WARNING: x", "KASAN: y"] = 1 ∧
    CalculateScore ["WARNING: x", "possible deadlock"] = 8/10 :=
  ⟨by decide, by decide, by decide, by decide⟩

/-- **C6.**  Evaluation at the failing input: with `maxSamples = 2` and
buffer `[1, 2]`, `AddSample 3` produces the buffer `[2]` — the compaction
drops the just-appended newest sample `3` (the code truncates the shifted
buffer to `maxSamples/2`, cutting off its last element), contradicting the
claim that the newest half, including the sample just appended, is kept. -/
theorem scoring_C6_bug :
    tsTwo.samples = [1, 2] ∧ tsTwo.maxSamples = 2 ∧
    (AddSample tsTwo 3).samples = [2] ∧ (3 : ℕ) ∉ (AddSample tsTwo 3).samples := by
  refine ⟨rfl, rfl, by decide, by decide⟩

/-- **C10.**  `UpdateDimensionScores` divides by `TotalRequests` with no
check: at `TotalRequests = 0` the incremental branch is taken and its
divisor `(TotalRequests : ℝ)` is `0`; the divisor is nonzero exactly under
the precondition `TotalRequests ≥ 1`, which holds as soon as
`UpdateMetrics` (which increments `TotalRequests` by one) has run once. -/
theorem scoring_C10 (m m2 : ScoreMetrics) (c r k t s : ℝ) (sel : Bool) (ct : Int)
    (h : m.TotalRequests = 0) (h2 : 1 ≤ m2.TotalRequests) :
    ((m.TotalRequests : ℝ)) = 0 ∧
    (UpdateDimensionScores m c r k t).AvgCoverageScore =
      (m.AvgCoverageScore * ((m.TotalRequests : ℝ) - 1) + c) / ((m.TotalRequests : ℝ)) ∧
    ((m2.TotalRequests : ℝ)) ≠ 0 ∧
    (UpdateMetrics m s sel ct).TotalRequests = m.TotalRequests + 1 := by
  refine ⟨by rw [h]; norm_num, ?_, ?_, ?_⟩
  · have h1 : ¬ m.TotalRequests = 1 := by omega
    simp [UpdateDimensionScores, h1]
  · have : m2.TotalRequests ≠ 0 := by omega
    exact_mod_cast this
  · simp only [UpdateMetrics]
    split_ifs <;> rfl

/-- Witness for C10 at concrete metrics states. -/
theorem scoring_C10_witness :
    metricsZero.TotalRequests = 0 ∧ 1 ≤ metricsOne.TotalRequests ∧
      ((metricsZero.TotalRequests : ℝ)) = 0 :=
  ⟨rfl, by decide,
    (scoring_C10 metricsZero metricsOne 1 1 1 1 1 true 0 rfl (by decide)).1⟩

/-- **C8.**  `CalculateAnomalyScore` returns `0` whenever fewer than 10
samples have been added; when at least 10 have been added and the cached
statistics are dirty with a non-empty buffer, it scores against the mean and
standard deviation recomputed from the buffer, returning `0` for zero
deviation and `min((|d−mean|/stddev)/2, 1)` otherwise; and (given the
invariant that the cached deviation is non-negative) the result always lies
in `[0, 1]`. -/
theorem scoring_C8 (ts : TimeStats) (x : ℕ) (hsd : 0 ≤ ts.stdDev) :
    (ts.count < 10 → CalculateAnomalyScore ts x = 0) ∧
    (¬ ts.count < 10 → ts.needRecalc = true → ts.samples ≠ [] →
      CalculateAnomalyScore ts x =
        (let n : ℝ := (ts.samples.length : ℝ)
         let m : ℝ := ((ts.samples.sum : ℕ) : ℝ) / n
         let sd : ℝ := Real.sqrt (((ts.samples.map fun s => ((s : ℝ) - m) * ((s : ℝ) - m)).sum) / n)
         if sd = 0 then 0 else min ((|(x : ℝ) - m| / sd) / 2) 1)) ∧
    0 ≤ CalculateAnomalyScore ts x ∧ CalculateAnomalyScore ts x ≤ 1 := by
  refine ⟨fun hc => by simp [CalculateAnomalyScore, hc], fun hc hnr hne => ?_, ?_⟩
  · simp [CalculateAnomalyScore, hc, hnr, recalculateStats, hne]
  · unfold CalculateAnomalyScore
    by_cases hc : ts.count < 10
    · simp [hc]
    · simp only [hc, if_false]
      have hsd1 : 0 ≤ (if ts.needRecalc then recalculateStats ts else ts).stdDev := by
        by_cases hr : ts.needRecalc
        · simp only [hr, if_true]
          unfold recalculateStats
          by_cases hs : ts.samples = []
          · simp [hs, hsd]
          · simp only [hs, if_neg, ite_false]
            exact Real.sqrt_nonneg _
        · simp [hr, hsd]
      by_cases hz : (if ts.needRecalc then recalculateStats ts else ts).stdDev = 0
      · simp [hz]
      · simp only [hz, if_false]
        constructor
        · refine le_min (by positivity) zero_le_one
        · exact min_le_right _ _

/-- Witness for C8 at a concrete state with fewer than 10 samples. -/
theorem scoring_C8_witness :
    0 ≤ tsTwo.stdDev ∧ tsTwo.count < 10 ∧ CalculateAnomalyScore tsTwo 5 = 0 :=
  ⟨le_refl 0, by decide, (scoring_C8 tsTwo 5 (le_refl 0)).1 (by decide)⟩

/-- `updateStatistics` does not touch the PC hit counters. -/
theorem updateStatistics_pcHitCounts (st : ScoreTracker) (r : ExecutionResult) :
    (updateStatistics st r).pcHitCounts = st.pcHitCounts := by
  simp only [updateStatistics]
  split_ifs <;> rfl

/-- Enabled `UpdateScore`: the coverage dimension is the one computed by
`calculateCoverageScore` against the pre-call counters. -/
theorem updateScoreCoverage (st : ScoreTracker) (p : String) (r : ExecutionResult)
    (hen : st.config.Enabled = true) :
    (UpdateScore st p r).2.Coverage = (calculateCoverageScore st.pcHitCounts r).1 := by
  simp [UpdateScore, hen]

/-- Enabled `UpdateScore`: the rarity dimension is computed against the
pre-call path-frequency table. -/
theorem updateScoreRarity (st : ScoreTracker) (p : String) (r : ExecutionResult)
    (hen : st.config.Enabled = true) :
    (UpdateScore st p r).2.Rarity = calculateRarityScore st.pathFrequency r := by
  simp [UpdateScore, hen]

/-- Enabled `UpdateScore`: the post-call hit counters are the ones folded by
`calculateCoverageScore`. -/
theorem updateScoreCounts (st : ScoreTracker) (p : String) (r : ExecutionResult)
    (hen : st.config.Enabled = true) :
    (UpdateScore st p r).1.pcHitCounts = (calculateCoverageScore st.pcHitCounts r).2 := by
  simp [UpdateScore, hen, updateStatistics_pcHitCounts]

/-- The coverage fold increments each element's counter once per occurrence. -/
theorem coverFold_counts (sig : List ℕ) :
    ∀ (counts : ℕ → ℤ) (pc : ℕ),
      (coverFold counts sig).2 pc = counts pc + (sig.count pc : ℤ) := by
  induction sig with
  | nil => intro counts pc; simp [coverFold]
  | cons a rest ih =>
    intro counts pc
    simp only [coverFold]
    rw [ih]
    by_cases hpc : pc = a
    · subst hpc
      simp [List.count_cons]
      ring
    · simp only [if_neg hpc, List.count_cons]
      have hne : ¬ a = pc := fun h => hpc h.symm
      simp [hne]

/-- On a duplicate-free signal the fold's "new" count is the number of
elements whose counter is zero before the call. -/
theorem coverFold_new (sig : List ℕ) :
    ∀ counts : ℕ → ℤ, sig.Nodup →
      (coverFold counts sig).1 = (sig.filter fun pc => decide (counts pc = 0)).length := by
  induction sig with
  | nil => intro counts _; simp [coverFold]
  | cons a rest ih =>
    intro counts hnd
    rcases List.nodup_cons.mp hnd with ⟨ha, hrest⟩
    simp only [coverFold]
    rw [ih _ hrest]
    have hcongr :
        (rest.filter fun pc => decide ((if pc = a then counts pc + 1 else counts pc) = 0)) =
          rest.filter fun pc => decide (counts pc = 0) := by
      apply List.filter_congr
      intro x hx
      have hxa : ¬ x = a := fun hxa => ha (hxa ▸ hx)
      simp [hxa]
    rw [hcongr]
    by_cases hz : counts a = 0
    · simp [List.filter_cons, hz]
      omega
    · simp [List.filter_cons, hz]

/-- **C3.**  For an enabled call: an empty signal scores coverage `0`; a
non-empty (duplicate-free) signal scores
`min(ln(1 + newRatio·e)/ln(1 + e), 1)` where `newRatio` counts the signal
elements whose global hit count was zero at the start of the call; the call
increments `pcHitCounts[pc]` by the number of occurrences of `pc` in the
outcome; and an element present in this outcome (with a non-negative prior
counter) is never classified as new by a later call on the updated state. -/
theorem scoring_C3 (st : ScoreTracker) (p : String) (r r2 : ExecutionResult)
    (hen : st.config.Enabled = true) (hnd : r.Signal.Nodup) :
    (r.Signal = [] → (UpdateScore st p r).2.Coverage = 0) ∧
    (r.Signal ≠ [] →
      (UpdateScore st p r).2.Coverage =
        min (Real.log (1 +
            (((r.Signal.filter fun pc => decide (st.pcHitCounts pc = 0)).length : ℝ) /
              (r.Signal.length : ℝ)) * Real.exp 1) /
          Real.log (1 + Real.exp 1)) 1) ∧
    (∀ pc, (UpdateScore st p r).1.pcHitCounts pc = st.pcHitCounts pc + (r.Signal.count pc : ℤ)) ∧
    (∀ pc, 0 ≤ st.pcHitCounts pc → pc ∈ r.Signal →
      pc ∉ (r2.Signal.filter fun q => decide ((UpdateScore st p r).1.pcHitCounts q = 0))) := by
  have hcounts : ∀ pc,
      (UpdateScore st p r).1.pcHitCounts pc = st.pcHitCounts pc + (r.Signal.count pc : ℤ) := by
    intro pc
    rw [updateScoreCounts st p r hen]
    by_cases hs : r.Signal = []
    · simp [calculateCoverageScore, hs]
    · simp only [calculateCoverageScore, hs, ite_false, if_neg]
      split_ifs <;> exact coverFold_counts r.Signal st.pcHitCounts pc
  refine ⟨?_, ?_, hcounts, ?_⟩
  · intro hs
    rw [updateScoreCoverage st p r hen]
    simp [calculateCoverageScore, hs]
  · intro hs
    rw [updateScoreCoverage st p r hen]
    have hlen : ¬ r.Signal.length = 0 := by
      simpa [List.length_eq_zero] using hs
    simp only [calculateCoverageScore, hs, ite_false, if_neg, hlen]
    rw [coverFold_new r.Signal st.pcHitCounts hnd]
  · intro pc hnonneg hmem hfil
    have hdec := (List.mem_filter.mp hfil).2
    have hzero : (UpdateScore st p r).1.pcHitCounts pc = 0 := by
      simpa using hdec
    have hcount : r.Signal.count pc ≠ 0 := fun h => (List.count_eq_zero.mp h) hmem
    rw [hcounts pc] at hzero
    omega

/-- Witness for C3: scoring the fresh element `7` on an empty enabled
tracker bumps its hit counter by its occurrence count. -/
theorem scoring_C3_witness :
    trackerEnabled.config.Enabled = true ∧ outcomeSig7.Signal.Nodup ∧
      (UpdateScore trackerEnabled "p" outcomeSig7).1.pcHitCounts 7 =
        trackerEnabled.pcHitCounts 7 + (outcomeSig7.Signal.count 7 : ℤ) :=
  ⟨rfl, by decide,
    (scoring_C3 trackerEnabled "p" outcomeSig7 outcomeSig7 rfl (by decide)).2.2.1 7⟩

/-- **C4, counterexample.**  Two outcomes against the same tracker state,
one with a never-seen signature (frequency 0) and one with a signature seen
once (frequency 1), score the same rarity `1.0` (`1/(1+ln 1) = 1`), so the
claimed strict ordering `r(f1) > r(f2)` fails at `f1 = 0 < f2 = 1`. -/
theorem scoring_C4_cex :
    trackerFreq.pathFrequency outcomeSig6.Signal = 0 ∧
    trackerFreq.pathFrequency outcomeSig5.Signal = 1 ∧
    ¬ ((UpdateScore trackerFreq "x" outcomeSig5).2.Rarity <
        (UpdateScore trackerFreq "x" outcomeSig6).2.Rarity) := by
  have h5 : (UpdateScore trackerFreq "x" outcomeSig5).2.Rarity = 1 := by
    rw [updateScoreRarity trackerFreq "x" outcomeSig5 rfl]
    have hf : trackerFreq.pathFrequency [5] = 1 := rfl
    norm_num [calculateRarityScore, outcomeSig5, rarityOfFreq, hf, Real.log_one]
  have h6 : (UpdateScore trackerFreq "x" outcomeSig6).2.Rarity = 1 := by
    rw [updateScoreRarity trackerFreq "x" outcomeSig6 rfl]
    have hf : trackerFreq.pathFrequency [6] = 0 := rfl
    norm_num [calculateRarityScore, outcomeSig6, rarityOfFreq, hf]
  exact ⟨rfl, rfl, by rw [h5, h6]; exact lt_irrefl 1⟩

/-- **C4, amended.**  For an enabled call on a non-empty signal, the rarity
dimension is `1` when the signature's recorded frequency is `0` and
`min(1/(1+ln f), 1)` when it is `f ≠ 0`.  The rarity map is strictly
decreasing in the previous frequency once `f2 ≥ 2`; at `(f1, f2) = (0, 1)`
(the case the counterexample exhibits) both frequencies score exactly `1`. -/
theorem scoring_C4 (st : ScoreTracker) (p : String) (r : ExecutionResult)
    (hen : st.config.Enabled = true) (hsig : r.Signal ≠ []) :
    (UpdateScore st p r).2.Rarity = rarityOfFreq (st.pathFrequency r.Signal) ∧
    (st.pathFrequency r.Signal = 0 → (UpdateScore st p r).2.Rarity = 1) ∧
    (st.pathFrequency r.Signal ≠ 0 →
      (UpdateScore st p r).2.Rarity =
        min (1 / (1 + Real.log ((st.pathFrequency r.Signal : ℝ)))) 1) ∧
    (∀ f1 f2 : ℤ, 0 ≤ f1 → f1 < f2 → 2 ≤ f2 → rarityOfFreq f2 < rarityOfFreq f1) ∧
    rarityOfFreq 0 = 1 ∧ rarityOfFreq 1 = 1 := by
  have hproj : (UpdateScore st p r).2.Rarity = rarityOfFreq (st.pathFrequency r.Signal) := by
    rw [updateScoreRarity st p r hen]
    simp [calculateRarityScore, hsig]
  have hord : ∀ f1 f2 : ℤ, 0 ≤ f1 → f1 < f2 → 2 ≤ f2 →
      rarityOfFreq f2 < rarityOfFreq f1 := by
    intro f1 f2 h0 h12 h2
    have hf2R : (2 : ℝ) ≤ (f2 : ℝ) := by exact_mod_cast h2
    have hlog2 : 0 < Real.log ((f2 : ℝ)) :=
      Real.log_pos (by linarith)
    have hv2lt : 1 / (1 + Real.log ((f2 : ℝ))) < 1 := by
      rw [div_lt_one (by linarith)]
      linarith
    have hv2 : rarityOfFreq f2 = 1 / (1 + Real.log ((f2 : ℝ))) := by
      have hne : ¬ f2 = 0 := by omega
      unfold rarityOfFreq
      rw [if_neg hne]
      exact min_eq_left (le_of_lt hv2lt)
    rcases eq_or_lt_of_le h0 with h1z | h1pos
    · have : rarityOfFreq f1 = 1 := by simp [rarityOfFreq, ← h1z]
      rw [this, hv2]
      exact hv2lt
    · have hf1R : (1 : ℝ) ≤ (f1 : ℝ) := by exact_mod_cast h1pos
      have hlog1 : 0 ≤ Real.log ((f1 : ℝ)) := Real.log_nonneg hf1R
      have hv1le : 1 / (1 + Real.log ((f1 : ℝ))) ≤ 1 := by
        rw [div_le_one (by linarith)]
        linarith
      have hv1 : rarityOfFreq f1 = 1 / (1 + Real.log ((f1 : ℝ))) := by
        have hne : ¬ f1 = 0 := by omega
        unfold rarityOfFreq
        rw [if_neg hne]
        exact min_eq_left hv1le
      rw [hv1, hv2]
      have hloglt : Real.log ((f1 : ℝ)) < Real.log ((f2 : ℝ)) := by
        apply Real.log_lt_log
        · exact_mod_cast h1pos
        · exact_mod_cast h12
      apply one_div_lt_one_div_of_lt (by linarith)
      linarith
  refine ⟨hproj, ?_, ?_, hord, by simp [rarityOfFreq], ?_⟩
  · intro hf
    rw [hproj]
    simp [rarityOfFreq, hf]
  · intro hf
    rw [hproj]
    unfold rarityOfFreq
    rw [if_neg hf]
  · unfold rarityOfFreq
    norm_num [Real.log_one]

/-- Witness for C4: frequency `1` (signature `[5]` previously seen once on
`trackerFreq`) scores rarity `min(1/(1+ln 1), 1) = 1`. -/
theorem scoring_C4_witness :
    trackerFreq.config.Enabled = true ∧ outcomeSig5.Signal ≠ [] ∧
      (UpdateScore trackerFreq "p" outcomeSig5).2.Rarity =
        rarityOfFreq (trackerFreq.pathFrequency outcomeSig5.Signal) :=
  ⟨rfl, by decide, (scoring_C4 trackerFreq "p" outcomeSig5 rfl (by decide)).1⟩

/-- The inner exchange pass returns a permutation of its input. -/
theorem passMax_perm (a : String × ℝ) (l : List (String × ℝ)) :
    List.Perm ((passMax a l).1 :: (passMax a l).2) (a :: l) := by
  induction l generalizing a with
  | nil => simp [passMax]
  | cons b rest ih =>
    simp only [passMax]
    by_cases hab : a.2 < b.2
    · simp only [if_pos hab]
      refine List.Perm.trans (List.Perm.swap a _ _) ?_
      exact (ih b).cons a
    · simp only [if_neg hab]
      refine List.Perm.trans (List.Perm.swap b _ _) ?_
      refine List.Perm.trans ((ih a).cons b) ?_
      exact List.Perm.swap a b rest

/-- The inner exchange pass moves a maximal element to the front. -/
theorem passMax_max (a : String × ℝ) (l : List (String × ℝ)) :
    ∀ x ∈ a :: l, x.2 ≤ (passMax a l).1.2 := by
  induction l generalizing a with
  | nil =>
    intro x hx
    rw [List.mem_singleton] at hx
    subst hx
    exact le_refl _
  | cons b rest ih =>
    intro x hx
    simp only [passMax]
    rcases List.mem_cons.mp hx with hxa | hx'
    · subst hxa
      by_cases hab : x.2 < b.2
      · simp only [if_pos hab]
        exact le_trans (le_of_lt hab) (ih b b (List.mem_cons_self b rest))
      · simp only [if_neg hab]
        exact ih x x (List.mem_cons_self x rest)
    · by_cases hab : a.2 < b.2
      · simp only [if_pos hab]
        exact ih b x hx'
      · simp only [if_neg hab]
        rcases List.mem_cons.mp hx' with hxb | hx''
        · subst hxb
          exact le_trans (not_lt.mp hab) (ih a a (List.mem_cons_self a rest))
        · exact ih a x (List.mem_cons_of_mem a hx'')

/-- The inner exchange pass preserves the number of remaining elements. -/
theorem passMax_length (a : String × ℝ) (l : List (String × ℝ)) :
    (passMax a l).2.length = l.length := by
  have h := (passMax_perm a l).length_eq
  simpa using h

/-- The fueled exchange sort permutes its input (for any fuel). -/
theorem exchangeSortFuel_perm (n : ℕ) :
    ∀ l : List (String × ℝ), List.Perm (exchangeSortFuel n l) l := by
  induction n with
  | zero => intro l; exact List.Perm.refl l
  | succ n ih =>
    intro l
    cases l with
    | nil => simp [exchangeSortFuel]
    | cons a rest =>
      simp only [exchangeSortFuel]
      exact ((ih _).cons _).trans (passMax_perm a rest)

/-- With enough fuel the exchange sort output is sorted by descending score. -/
theorem exchangeSortFuel_sorted (n : ℕ) :
    ∀ l : List (String × ℝ), l.length ≤ n →
      (exchangeSortFuel n l).Sorted (fun x y => y.2 ≤ x.2) := by
  induction n with
  | zero =>
    intro l hl
    have hnil : l = [] := List.length_eq_zero.mp (Nat.le_zero.mp hl)
    subst hnil
    simp [exchangeSortFuel]
  | succ n ih =>
    intro l hl
    cases l with
    | nil => simp [exchangeSortFuel]
    | cons a rest =>
      simp only [exchangeSortFuel]
      rw [List.sorted_cons]
      constructor
      · intro b hb
        have hb2 : b ∈ (passMax a rest).2 := (exchangeSortFuel_perm n _).mem_iff.mp hb
        have hb3 : b ∈ (passMax a rest).1 :: (passMax a rest).2 := List.mem_cons_of_mem _ hb2
        have hb4 : b ∈ a :: rest := (passMax_perm a rest).mem_iff.mp hb3
        exact passMax_max a rest b hb4
      · apply ih
        rw [passMax_length]
        simpa using hl

/-- **C9, counterexample.**  `GetTopScoredProgs` is not total: at
`limit = -1` the Go code executes `make([]string, 0, -1)`, a runtime panic
(modelled as `none`), even on an empty cache. -/
theorem scoring_C9_cex : GetTopScoredProgs [] (-1) = none := by
  simp [GetTopScoredProgs]

/-- **C9, amended.**  For every `limit ≥ 0`, `GetTopScoredProgs` completes,
returning the cached identities sorted by descending total score and
truncated to at most `limit` entries; when `limit ≥` the cached count it
returns all cached identities. -/
theorem scoring_C9 (scores : List (String × ProgScore)) (limit : ℤ) (h : 0 ≤ limit) :
    ∃ res, GetTopScoredProgs scores limit = some res ∧
      res = ((exchangeSort (scores.map fun p => (p.1, p.2.Total))).map Prod.fst).take
        limit.toNat ∧
      List.Perm (exchangeSort (scores.map fun p => (p.1, p.2.Total)))
        (scores.map fun p => (p.1, p.2.Total)) ∧
      (exchangeSort (scores.map fun p => (p.1, p.2.Total))).Sorted (fun x y => y.2 ≤ x.2) ∧
      res.length ≤ limit.toNat ∧
      ((scores.length : ℤ) ≤ limit → List.Perm res (scores.map Prod.fst)) := by
  have hnot : ¬ limit < 0 := not_lt.mpr h
  refine ⟨_, by simp [GetTopScoredProgs, hnot], rfl,
    exchangeSortFuel_perm _ _, exchangeSortFuel_sorted _ _ (le_refl _), ?_, ?_⟩
  · exact List.length_take_le _ _
  · intro hlen
    have hlensort : (exchangeSort (scores.map fun p => (p.1, p.2.Total))).length =
        scores.length := by
      unfold exchangeSort
      rw [(exchangeSortFuel_perm _ _).length_eq, List.length_map]
    have hle : ((exchangeSort (scores.map fun p => (p.1, p.2.Total))).map Prod.fst).length ≤
        limit.toNat := by
      rw [List.length_map, hlensort]
      omega
    rw [List.take_of_length_le hle]
    have hperm := (exchangeSortFuel_perm (scores.map fun p => (p.1, p.2.Total)).length
      (scores.map fun p => (p.1, p.2.Total))).map Prod.fst
    have h2 : List.map Prod.fst (scores.map fun p => (p.1, p.2.Total)) =
        List.map Prod.fst scores := by
      rw [List.map_map]
      rfl
    exact h2 ▸ hperm

/-- Witness for C9 at `limit = 1` on the empty cache. -/
theorem scoring_C9_witness :
    0 ≤ (1 : ℤ) ∧ ∃ res, GetTopScoredProgs [] 1 = some res :=
  ⟨by decide, Exists.imp (fun _ hr => hr.1) (scoring_C9 [] 1 (by decide))⟩

/-- In an association list with duplicate-free keys, entries are determined
by their key. -/
theorem keyUnique (w : List (String × ℝ)) (hnd : (w.map Prod.fst).Nodup) :
    ∀ a b : String × ℝ, a ∈ w → b ∈ w → a.1 = b.1 → a = b := by
  induction w with
  | nil => intro a b ha _ _; exact absurd ha (List.not_mem_nil a)
  | cons p rest ih =>
    intro a b ha hb hab
    have hnd' : (rest.map Prod.fst).Nodup := (List.nodup_cons.mp hnd).2
    have hhead : p.1 ∉ rest.map Prod.fst := (List.nodup_cons.mp hnd).1
    rcases List.mem_cons.mp ha with rfl | ha' <;> rcases List.mem_cons.mp hb with rfl | hb'
    · rfl
    · exact absurd (hab ▸ List.mem_map_of_mem Prod.fst hb') hhead
    · exact absurd (hab ▸ List.mem_map_of_mem Prod.fst ha') hhead
    · exact ih hnd' a b ha' hb' hab

/-- Entries of `posPairs` are entries of the map with positive weight. -/
theorem posPairs_sub (w : List (String × ℝ)) :
    ∀ p ∈ posPairs w, p ∈ w ∧ 0 < p.2 := by
  intro p hp
  refine ⟨List.mem_of_mem_filter hp, ?_⟩
  have := List.of_mem_filter hp
  exact of_decide_eq_true this

/-- A positive-weight entry of the map is in `posPairs`. -/
theorem mem_posPairs (w : List (String × ℝ)) (p : String × ℝ) (hp : p ∈ w)
    (hpos : 0 < p.2) : p ∈ posPairs w :=
  List.mem_filter.mpr ⟨hp, decide_eq_true hpos⟩

/-- Every weight collected by `posPairs` is positive. -/
theorem posWeights_pos (w : List (String × ℝ)) :
    ∀ x ∈ (posPairs w).map Prod.snd, 0 < x := by
  intro x hx
  rcases List.mem_map.mp hx with ⟨p, hp, rfl⟩
  exact (posPairs_sub w p hp).2

/-- The rebuild loop produces exactly the cumulative sums of the positive
weights, paired with their hashes, in iteration order. -/
theorem rebuildAux_eq (ws : List (String × ℝ)) :
    ∀ c, rebuildAux c ws =
      (cumList c ((posPairs ws).map Prod.snd), (posPairs ws).map Prod.fst) := by
  induction ws with
  | nil => intro c; simp [rebuildAux, posPairs, cumList]
  | cons p rest ih =>
    intro c
    rcases p with ⟨h, w⟩
    by_cases hw : 0 < w
    · simp only [rebuildAux, if_pos hw, posPairs, List.filter_cons, decide_eq_true hw,
        ite_true, List.map_cons, cumList]
      rw [ih (c + w)]
      simp [posPairs]
    · have hd : decide (0 < (h, w).2) = false := decide_eq_false hw
      simp only [rebuildAux, if_neg hw, posPairs, List.filter_cons, hd, ite_false]
      exact ih c

/-- Length of the cumulative-sum list. -/
theorem cumList_length (l : List ℝ) : ∀ c, (cumList c l).length = l.length := by
  induction l with
  | nil => intro c; simp [cumList]
  | cons w rest ih => intro c; simp [cumList, ih]

/-- Entry `k` of the cumulative-sum list is the base plus the sum of the
first `k+1` weights. -/
theorem cumList_getD (l : List ℝ) :
    ∀ c k, k < l.length → (cumList c l).getD k 0 = c + (l.take (k + 1)).sum := by
  induction l with
  | nil => intro c k hk; simp at hk
  | cons w rest ih =>
    intro c k hk
    cases k with
    | zero => simp [cumList]
    | succ k =>
      simp only [cumList, List.getD_cons_succ]
      rw [ih (c + w) k (by simpa using hk)]
      simp [List.take_succ_cons]
      ring

/-- Last entry of a non-empty cumulative-sum list: base plus total sum. -/
theorem cumList_getLastD_ne (l : List ℝ) :
    ∀ c d, l ≠ [] → (cumList c l).getLastD d = c + l.sum := by
  induction l with
  | nil => intro c d h; exact absurd rfl h
  | cons w rest ih =>
    intro c d _
    by_cases hr : rest = []
    · subst hr; simp [cumList]
    · simp only [cumList, List.getLastD_cons]
      rw [ih (c + w) _ hr]
      simp [List.sum_cons]
      ring

/-- The cumulative-sum list of positive weights is a strictly increasing
chain above its base. -/
theorem cumList_chain (l : List ℝ) :
    ∀ c, (∀ x ∈ l, 0 < x) → List.Chain (· < ·) c (cumList c l) := by
  induction l with
  | nil => intro c _; exact List.Chain.nil
  | cons w rest ih =>
    intro c hpos
    simp only [cumList]
    refine List.Chain.cons ?_ (ih (c + w) fun x hx => hpos x (List.mem_cons_of_mem _ hx))
    have := hpos w (List.mem_cons_self w rest)
    linarith

/-- Prefix sums of a positive list are monotone in the prefix length. -/
theorem cumTake_mono (l : List ℝ) (hpos : ∀ x ∈ l, 0 < x) :
    ∀ i j : ℕ, i ≤ j → (l.take (i + 1)).sum ≤ (l.take (j + 1)).sum := by
  intro i j hij
  have hsplit : (l.take (j + 1)).sum =
      (l.take (i + 1)).sum + ((l.take (j + 1)).drop (i + 1)).sum := by
    conv_lhs => rw [← List.take_append_drop (i + 1) (l.take (j + 1))]
    rw [List.sum_append, List.take_take, min_eq_left (by omega)]
  have hnn : 0 ≤ ((l.take (j + 1)).drop (i + 1)).sum := by
    apply List.sum_nonneg
    intro x hx
    exact le_of_lt (hpos x (List.mem_of_mem_take (List.mem_of_mem_drop hx)))
  linarith

/-- One step of a prefix sum: extend the prefix by entry `t`. -/
theorem take_sum_succ (l : List ℝ) : ∀ t, t < l.length →
    (l.take (t + 1)).sum = (l.take t).sum + l.getD t 0 := by
  induction l with
  | nil => intro t ht; simp at ht
  | cons x rest ih =>
    intro t ht
    cases t with
    | zero => simp
    | succ t =>
      rw [List.take_succ_cons, List.take_succ_cons, List.sum_cons, List.sum_cons,
        List.getD_cons_succ, ih t (by simpa using ht)]
      ring

/-- Prefix sums of a positive list are positive. -/
theorem cumTake_pos (l : List ℝ) (hpos : ∀ x ∈ l, 0 < x) (hne : l ≠ []) (k : ℕ) :
    0 < (l.take (k + 1)).sum := by
  apply List.sum_pos
  · intro x hx
    exact hpos x (List.mem_of_mem_take hx)
  · cases l with
    | nil => exact absurd rfl hne
    | cons a rest => simp [List.take_succ_cons]

/-- The binary-search loop stays within its bracket. -/
theorem bsearchLoop_bounds (cum : List ℝ) (target : ℝ) :
    ∀ n left right : ℕ, right - left ≤ n → left ≤ right →
      left ≤ bsearchLoop cum target left right ∧ bsearchLoop cum target left right ≤ right := by
  intro n
  induction n with
  | zero =>
    intro l r hn hlr
    have hlr' : l = r := by omega
    subst hlr'
    rw [bsearchLoop]
    simp
  | succ n ih =>
    intro l r hn hlr
    rw [bsearchLoop]
    by_cases hlt : l < r
    · rw [dif_pos hlt]
      simp only []
      by_cases hc : cum.getD ((l + r) / 2) 0 < target
      · rw [if_pos hc]
        have := ih ((l + r) / 2 + 1) r (by omega) (by omega)
        exact ⟨by omega, this.2⟩
      · rw [if_neg hc]
        have := ih l ((l + r) / 2) (by omega) (by omega)
        exact ⟨this.1, by omega⟩
    · rw [dif_neg hlt]
      exact ⟨le_refl l, hlr⟩

/-- Correctness of the binary search on a monotone cumulative array: it
returns the least index whose entry is at least the target, provided the
bracket's invariants hold. -/
theorem bsearchLoop_spec (cum : List ℝ) (target : ℝ)
    (hmono : ∀ i j : ℕ, i ≤ j → j < cum.length → cum.getD i 0 ≤ cum.getD j 0) :
    ∀ n left right : ℕ, right - left ≤ n → left ≤ right → right < cum.length →
      (∀ k, k < left → cum.getD k 0 < target) → target ≤ cum.getD right 0 →
      left ≤ bsearchLoop cum target left right ∧
      bsearchLoop cum target left right ≤ right ∧
      target ≤ cum.getD (bsearchLoop cum target left right) 0 ∧
      (∀ k, k < bsearchLoop cum target left right → cum.getD k 0 < target) := by
  intro n
  induction n with
  | zero =>
    intro l r hn hlr hrlen hbelow habove
    have hlr' : l = r := by omega
    subst hlr'
    rw [bsearchLoop]
    simp only [lt_irrefl, dite_false]
    exact ⟨le_refl _, le_refl _, habove, hbelow⟩
  | succ n ih =>
    intro l r hn hlr hrlen hbelow habove
    rw [bsearchLoop]
    by_cases hlt : l < r
    · rw [dif_pos hlt]
      simp only []
      by_cases hc : cum.getD ((l + r) / 2) 0 < target
      · rw [if_pos hc]
        have hbelow' : ∀ k, k < (l + r) / 2 + 1 → cum.getD k 0 < target := by
          intro k hk
          exact lt_of_le_of_lt (hmono k ((l + r) / 2) (by omega) (by omega)) hc
        have := ih ((l + r) / 2 + 1) r (by omega) (by omega) hrlen hbelow' habove
        exact ⟨by omega, this.2.1, this.2.2.1, this.2.2.2⟩
      · rw [if_neg hc]
        have := ih l ((l + r) / 2) (by omega) (by omega) (by omega) hbelow (not_lt.mp hc)
        exact ⟨this.1, by omega, this.2.2.1, this.2.2.2⟩
    · rw [dif_neg hlt]
      have hlr' : l = r := by omega
      subst hlr'
      exact ⟨le_refl _, le_refl _, habove, hbelow⟩

/-- **C7.**  After a rebuild: the cumulative array is monotonically
non-decreasing (indeed a strictly increasing chain) and its last element is
the sum of the positive weights; an entry with weight `≤ 0` never appears in
the derived hash array and (unless its key is the empty sentinel string) can
never be returned by `SelectWeighted`; and the raw weight map is untouched. -/
theorem scoring_C7 (sel : WeightedSelector)
    (hnd : (sel.weights.map Prod.fst).Nodup) :
    List.Chain' (· ≤ ·) (rebuildWeightTable sel).cumulativeWeights ∧
    (rebuildWeightTable sel).cumulativeWeights.getLastD 0 = posTotal sel.weights ∧
    (∀ i wi, (i, wi) ∈ sel.weights → wi ≤ 0 →
      i ∉ (rebuildWeightTable sel).progHashes) ∧
    (∀ i wi (u : ℝ), (i, wi) ∈ sel.weights → wi ≤ 0 → i ≠ "" →
      (SelectWeighted (rebuildWeightTable sel) u).2 ≠ i) ∧
    (rebuildWeightTable sel).weights = sel.weights := by
  have hcum : (rebuildWeightTable sel).cumulativeWeights =
      cumList 0 ((posPairs sel.weights).map Prod.snd) := by
    simp [rebuildWeightTable, rebuildAux_eq]
  have hhashes : (rebuildWeightTable sel).progHashes =
      (posPairs sel.weights).map Prod.fst := by
    simp [rebuildWeightTable, rebuildAux_eq]
  have hnotmem : ∀ i wi, (i, wi) ∈ sel.weights → wi ≤ 0 →
      i ∉ (rebuildWeightTable sel).progHashes := by
    intro i wi hmem hle hmemhash
    rw [hhashes] at hmemhash
    rcases List.mem_map.mp hmemhash with ⟨p, hp, hp1⟩
    rcases posPairs_sub sel.weights p hp with ⟨hpw, hppos⟩
    have := keyUnique sel.weights hnd p (i, wi) hpw hmem hp1
    rw [this] at hppos
    exact absurd hppos (not_lt.mpr hle)
  refine ⟨?_, ?_, hnotmem, ?_, rfl⟩
  · rw [hcum]
    have hchain := cumList_chain ((posPairs sel.weights).map Prod.snd) 0
      (posWeights_pos sel.weights)
    cases hcl : cumList 0 ((posPairs sel.weights).map Prod.snd) with
    | nil => exact List.chain'_nil
    | cons x xs =>
      rw [hcl] at hchain
      cases hchain with
      | cons hx htail =>
        show List.Chain (· ≤ ·) x xs
        exact List.Chain.imp (fun a b hab => le_of_lt hab) htail
  · rw [hcum]
    by_cases hp : (posPairs sel.weights).map Prod.snd = []
    · rw [hp]
      simp [cumList, posTotal, hp]
    · rw [cumList_getLastD_ne _ 0 0 hp]
      simp [posTotal]
  · intro i wi u hmem hle hne
    simp only [SelectWeighted]
    have hnr : (rebuildWeightTable sel).needRebuild = false := rfl
    rw [hnr]
    simp only [ite_false, Bool.false_eq_true, if_false]
    by_cases hlen : (rebuildWeightTable sel).cumulativeWeights.length = 0
    · simp only [hlen, if_pos rfl]
      exact fun h => hne h.symm
    · simp only [if_neg hlen]
      intro hcontra
      apply hnotmem i wi hmem hle
      rw [← hcontra]
      have hlen2 : (rebuildWeightTable sel).progHashes.length =
          (rebuildWeightTable sel).cumulativeWeights.length := by
        rw [hcum, hhashes, cumList_length, List.length_map, List.length_map]
      have hidx := bsearchLoop_bounds (rebuildWeightTable sel).cumulativeWeights
        (u * (rebuildWeightTable sel).cumulativeWeights.getD
          ((rebuildWeightTable sel).cumulativeWeights.length - 1) 0)
        ((rebuildWeightTable sel).cumulativeWeights.length - 1) 0
        ((rebuildWeightTable sel).cumulativeWeights.length - 1) (le_refl _) (by omega)
      have hidxlt : bsearchLoop (rebuildWeightTable sel).cumulativeWeights
          (u * (rebuildWeightTable sel).cumulativeWeights.getD
            ((rebuildWeightTable sel).cumulativeWeights.length - 1) 0) 0
          ((rebuildWeightTable sel).cumulativeWeights.length - 1) <
          (rebuildWeightTable sel).progHashes.length := by
        rw [hlen2]
        omega
      rw [List.getD_eq_get _ _ hidxlt]
      exact List.get_mem _ _ _

/-- Witness for C7: rebuilding the two-entry selector excludes the
negative-weight key `"z"` from the derived hash array. -/
theorem scoring_C7_witness :
    (selEx.weights.map Prod.fst).Nodup ∧ "z" ∉ (rebuildWeightTable selEx).progHashes :=
  ⟨by decide, (scoring_C7 selEx (by decide)).2.2.1 "z" (-1)
    (List.mem_cons_of_mem _ (List.mem_cons_self _ _)) (by norm_num)⟩

/-- A full draw against a raw weight map with at least one positive entry:
the result is the entry of `posPairs` at the least index whose cumulative
weight reaches `u × total`. -/
theorem selectFromWeights_index (w : List (String × ℝ)) (u : ℝ)
    (hne : posPairs w ≠ []) (hu0 : 0 ≤ u) (hu1 : u < 1) :
    ∃ j, ∃ hj : j < (posPairs w).length,
      selectFromWeights w u = ((posPairs w).get ⟨j, hj⟩).1 ∧
      u * posTotal w ≤ ((((posPairs w).map Prod.snd).take (j + 1)).sum) ∧
      ∀ m, m < j → ((((posPairs w).map Prod.snd).take (m + 1)).sum) < u * posTotal w := by
  set l := (posPairs w).map Prod.snd with hl
  have hlpos : ∀ x ∈ l, 0 < x := posWeights_pos w
  have hlne : l ≠ [] := by
    intro h
    apply hne
    have hlen := congrArg List.length h
    rw [hl, List.length_map] at hlen
    exact List.length_eq_zero.mp (by simpa using hlen)
  have hN : 0 < l.length := List.length_pos.mpr hlne
  have hrb : rebuildWeightTable ⟨w, [], [], true⟩ =
      ⟨w, cumList 0 l, (posPairs w).map Prod.fst, false⟩ := by
    rw [hl]
    simp [rebuildWeightTable, rebuildAux_eq w 0]
  have hlen0 : ¬ ((cumList 0 l).length = 0) := by
    rw [cumList_length]
    omega
  have hsel : selectFromWeights w u =
      ((posPairs w).map Prod.fst).getD
        (bsearchLoop (cumList 0 l)
          (u * (cumList 0 l).getD ((cumList 0 l).length - 1) 0) 0
          ((cumList 0 l).length - 1)) "" := by
    simp only [selectFromWeights, SelectWeighted, hrb, ite_true]
    rw [if_neg hlen0]
  have htarget : (cumList 0 l).getD ((cumList 0 l).length - 1) 0 = l.sum := by
    rw [cumList_length, cumList_getD l 0 (l.length - 1) (by omega),
      show l.length - 1 + 1 = l.length by omega, List.take_length]
    ring
  have hS : posTotal w = l.sum := rfl
  have hSpos : 0 < l.sum := List.sum_pos l hlpos hlne
  have hmono : ∀ i j : ℕ, i ≤ j → j < (cumList 0 l).length →
      (cumList 0 l).getD i 0 ≤ (cumList 0 l).getD j 0 := by
    intro i j hij hjlen
    rw [cumList_length] at hjlen
    rw [cumList_getD l 0 i (by omega), cumList_getD l 0 j hjlen]
    have := cumTake_mono l hlpos i j hij
    linarith
  have habove : u * l.sum ≤ (cumList 0 l).getD ((cumList 0 l).length - 1) 0 := by
    rw [htarget]
    nlinarith
  rw [htarget] at hsel
  obtain ⟨h0, h1, h2, h3⟩ := bsearchLoop_spec (cumList 0 l) (u * l.sum) hmono
    ((cumList 0 l).length - 1) 0 ((cumList 0 l).length - 1) (le_refl _) (by omega)
    (by rw [cumList_length]; omega) (fun k hk => absurd hk (Nat.not_lt_zero k)) habove
  have hcl : (cumList 0 l).length = l.length := cumList_length l 0
  have hlp : l.length = (posPairs w).length := by rw [hl, List.length_map]
  have hjlt : bsearchLoop (cumList 0 l) (u * l.sum) 0 ((cumList 0 l).length - 1) <
      (posPairs w).length := by
    omega
  refine ⟨_, hjlt, ?_, ?_, ?_⟩
  · rw [hsel]
    rw [List.getD_eq_getElem _ _ (by rw [List.length_map]; exact hjlt)]
    simp [List.getElem_map, List.get_eq_getElem]
  · rw [hS]
    have h2' := h2
    rw [cumList_getD l 0 _ (by omega)] at h2'
    linarith
  · intro m hm
    have h3' := h3 m hm
    rw [cumList_getD l 0 m (by omega)] at h3'
    rw [hS]
    linarith

/-- **C1.**  For a duplicate-free weight map: (1) whenever some entry has
positive weight and `u ∈ [0,1)`, the draw returns the key of a
positive-weight entry; (2) for each positive-weight entry `(i, wᵢ)` the set
of `u ∈ [0,1)` drawing `i` has Lebesgue measure `wᵢ / Σ positive weights`;
(3) when no entry has positive weight, the draw returns the empty identity. -/
theorem scoring_C1 (w : List (String × ℝ)) (hnd : (w.map Prod.fst).Nodup) :
    (∀ u : ℝ, 0 ≤ u → u < 1 → (∃ p ∈ w, 0 < p.2) →
      ∃ p ∈ w, 0 < p.2 ∧ selectFromWeights w u = p.1) ∧
    (∀ i wi, (i, wi) ∈ w → 0 < wi →
      volume {u : ℝ | u ∈ Set.Ico (0 : ℝ) 1 ∧ selectFromWeights w u = i} =
        ENNReal.ofReal (wi / posTotal w)) ∧
    (∀ u : ℝ, (∀ p ∈ w, p.2 ≤ 0) → selectFromWeights w u = "") := by
  refine ⟨?_, ?_, ?_⟩
  · intro u hu0 hu1 hex
    have hne : posPairs w ≠ [] := by
      rcases hex with ⟨p, hp, hppos⟩
      intro hnil
      exact absurd (mem_posPairs w p hp hppos) (by rw [hnil]; exact List.not_mem_nil p)
    obtain ⟨j, hj, hsel, _, _⟩ := selectFromWeights_index w u hne hu0 hu1
    have hmem := List.get_mem (posPairs w) j hj
    rcases posPairs_sub w _ hmem with ⟨hw, hpos⟩
    exact ⟨_, hw, hpos, hsel⟩
  · intro i wi hmem hpos
    have hmempos : (i, wi) ∈ posPairs w := mem_posPairs w (i, wi) hmem hpos
    have hne : posPairs w ≠ [] := fun h =>
      absurd hmempos (by rw [h]; exact List.not_mem_nil _)
    set l := (posPairs w).map Prod.snd with hl
    have hlpos : ∀ x ∈ l, 0 < x := posWeights_pos w
    have hlne : l ≠ [] := by
      intro h
      apply hne
      have hlen := congrArg List.length h
      rw [hl, List.length_map] at hlen
      exact List.length_eq_zero.mp (by simpa using hlen)
    have hS : posTotal w = l.sum := rfl
    have hSpos : 0 < l.sum := List.sum_pos l hlpos hlne
    have hkeynd : ((posPairs w).map Prod.fst).Nodup :=
      hnd.sublist ((List.filter_sublist w).map Prod.fst)
    have hppnd : (posPairs w).Nodup := hkeynd.of_map
    obtain ⟨⟨k, hk⟩, hgetk⟩ := List.mem_iff_get.mp hmempos
    have hkl : k < l.length := by rw [hl, List.length_map]; exact hk
    have hwk : l.getD k 0 = wi := by
      rw [hl, List.getD_eq_getElem _ _ (by rw [List.length_map]; exact hk),
        List.getElem_map]
      have hpk : (posPairs w)[k] = (i, wi) := by
        rw [← hgetk]
        simp [List.get_eq_getElem]
      rw [hpk]
    have hAk_le : (l.take (k + 1)).sum ≤ l.sum := by
      have h := cumTake_mono l hlpos k (l.length - 1) (by omega)
      rwa [show l.length - 1 + 1 = l.length by omega, List.take_length] at h
    -- characterization of the event "u draws i"
    have hchar : ∀ u : ℝ, 0 ≤ u → u < 1 →
        (selectFromWeights w u = i ↔
          (u * l.sum ≤ (l.take (k + 1)).sum ∧
            ∀ m, m < k → (l.take (m + 1)).sum < u * l.sum)) := by
      intro u hu0 hu1
      obtain ⟨j, hj, hsel, hjab, hjbel⟩ := selectFromWeights_index w u hne hu0 hu1
      rw [hS] at hjab hjbel
      constructor
      · intro hi
        have hkeyeq : ((posPairs w).get ⟨j, hj⟩).1 = ((posPairs w).get ⟨k, hk⟩).1 := by
          rw [← hsel, hi, hgetk]
        have hpair : (posPairs w).get ⟨j, hj⟩ = (posPairs w).get ⟨k, hk⟩ :=
          keyUnique (posPairs w) hkeynd _ _ (List.get_mem _ _ _) (List.get_mem _ _ _) hkeyeq
        have hjk : j = k := by
          have := (List.Nodup.get_inj_iff hppnd).mp hpair
          exact congrArg Fin.val this
        subst hjk
        exact ⟨hjab, hjbel⟩
      · rintro ⟨hab, hbel⟩
        have hjk : j = k := by
          rcases Nat.lt_trichotomy j k with hlt | heq | hgt
          · exact absurd hjab (not_le.mpr (hbel j hlt))
          · exact heq
          · exact absurd hab (not_le.mpr (hjbel k hgt))
        subst hjk
        rw [hsel]
        exact congrArg Prod.fst hgetk
    rcases Nat.eq_zero_or_pos k with hk0 | hkpos
    · -- first positive entry: the event is [0, wi/total] clipped to [0,1)
      subst hk0
      have hA0 : (l.take (0 + 1)).sum = wi := by
        rw [take_sum_succ l 0 hkl, hwk]
        simp
      have hble : wi / l.sum ≤ 1 := by
        rw [div_le_one hSpos, ← hA0]
        exact hAk_le
      by_cases hb1 : wi / l.sum < 1
      · have hset : {u : ℝ | u ∈ Set.Ico (0 : ℝ) 1 ∧ selectFromWeights w u = i} =
            Set.Icc 0 (wi / l.sum) := by
          ext u
          simp only [Set.mem_setOf_eq, Set.mem_Ico, Set.mem_Icc]
          constructor
          · rintro ⟨⟨h0, h1⟩, hseli⟩
            rcases (hchar u h0 h1).mp hseli with ⟨hab, _⟩
            rw [hA0] at hab
            exact ⟨h0, (le_div_iff hSpos).mpr hab⟩
          · rintro ⟨h0, hub⟩
            have h1 : u < 1 := lt_of_le_of_lt hub hb1
            refine ⟨⟨h0, h1⟩, (hchar u h0 h1).mpr
              ⟨?_, fun m hm => absurd hm (Nat.not_lt_zero m)⟩⟩
            rw [hA0]
            exact (le_div_iff hSpos).mp hub
        rw [hset, Real.volume_Icc, sub_zero, hS]
      · have hbeq : wi / l.sum = 1 := le_antisymm hble (not_lt.mp hb1)
        have hwiS : wi = l.sum := by
          field_simp at hbeq
          linarith [hbeq]
        have hset : {u : ℝ | u ∈ Set.Ico (0 : ℝ) 1 ∧ selectFromWeights w u = i} =
            Set.Ico 0 1 := by
          ext u
          simp only [Set.mem_setOf_eq, Set.mem_Ico]
          constructor
          · rintro ⟨hu, _⟩
            exact hu
          · intro hu
            refine ⟨hu, (hchar u hu.1 hu.2).mpr
              ⟨?_, fun m hm => absurd hm (Nat.not_lt_zero m)⟩⟩
            rw [hA0, hwiS]
            nlinarith [hu.1, hu.2, hSpos]
        rw [hset, Real.volume_Ico, sub_zero, hS, hbeq]
    · -- later entry: the event is (prefix/total, prefix'/total] clipped
      have hk1 : k - 1 < l.length := by omega
      have hAk_sub : (l.take (k + 1)).sum = (l.take k).sum + wi := by
        rw [take_sum_succ l k hkl, hwk]
      have hAk'_pos : 0 < (l.take k).sum := by
        have := cumTake_pos l hlpos hlne (k - 1)
        rwa [show k - 1 + 1 = k by omega] at this
      have hforall : ∀ u : ℝ,
          ((∀ m, m < k → (l.take (m + 1)).sum < u * l.sum) ↔
            (l.take k).sum < u * l.sum) := by
        intro u
        constructor
        · intro h
          have := h (k - 1) (by omega)
          rwa [show k - 1 + 1 = k by omega] at this
        · intro h m hm
          have hmono := cumTake_mono l hlpos m (k - 1) (by omega)
          rw [show k - 1 + 1 = k by omega] at hmono
          linarith
      have hapos : 0 < (l.take k).sum / l.sum := div_pos hAk'_pos hSpos
      have hbble : (l.take (k + 1)).sum / l.sum ≤ 1 := (div_le_one hSpos).mpr hAk_le
      have hcond : ∀ u : ℝ, 0 ≤ u → u < 1 →
          (selectFromWeights w u = i ↔
            ((l.take k).sum / l.sum < u ∧ u ≤ (l.take (k + 1)).sum / l.sum)) := by
        intro u hu0 hu1
        rw [hchar u hu0 hu1]
        constructor
        · rintro ⟨h2, h3⟩
          exact ⟨(div_lt_iff hSpos).mpr ((hforall u).mp h3), (le_div_iff hSpos).mpr h2⟩
        · rintro ⟨h1, h2⟩
          exact ⟨(le_div_iff hSpos).mp h2, (hforall u).mpr ((div_lt_iff hSpos).mp h1)⟩
      have hdiff : (l.take (k + 1)).sum / l.sum - (l.take k).sum / l.sum = wi / l.sum := by
        rw [div_sub_div_same, hAk_sub]
        ring_nf
      by_cases hbb1 : (l.take (k + 1)).sum / l.sum < 1
      · have hset : {u : ℝ | u ∈ Set.Ico (0 : ℝ) 1 ∧ selectFromWeights w u = i} =
            Set.Ioc ((l.take k).sum / l.sum) ((l.take (k + 1)).sum / l.sum) := by
          ext u
          simp only [Set.mem_setOf_eq, Set.mem_Ico, Set.mem_Ioc]
          constructor
          · rintro ⟨⟨h0, h1⟩, hseli⟩
            exact (hcond u h0 h1).mp hseli
          · rintro ⟨h1, h2⟩
            have h0 : 0 ≤ u := le_of_lt (lt_trans hapos h1)
            have hu1 : u < 1 := lt_of_le_of_lt h2 hbb1
            exact ⟨⟨h0, hu1⟩, (hcond u h0 hu1).mpr ⟨h1, h2⟩⟩
        rw [hset, Real.volume_Ioc, hdiff, hS]
      · have hbbeq : (l.take (k + 1)).sum / l.sum = 1 := le_antisymm hbble (not_lt.mp hbb1)
        have hset : {u : ℝ | u ∈ Set.Ico (0 : ℝ) 1 ∧ selectFromWeights w u = i} =
            Set.Ioo ((l.take k).sum / l.sum) 1 := by
          ext u
          simp only [Set.mem_setOf_eq, Set.mem_Ico, Set.mem_Ioo]
          constructor
          · rintro ⟨⟨h0, h1⟩, hseli⟩
            exact ⟨((hcond u h0 h1).mp hseli).1, h1⟩
          · rintro ⟨h1, h2⟩
            have h0 : 0 ≤ u := le_of_lt (lt_trans hapos h1)
            refine ⟨⟨h0, h2⟩, (hcond u h0 h2).mpr ⟨h1, ?_⟩⟩
            rw [hbbeq]
            exact le_of_lt h2
        rw [hset, Real.volume_Ioo, show (1 : ℝ) = (l.take (k + 1)).sum / l.sum from hbbeq.symm,
          hdiff, hS]
  · intro u hall
    have hpp : posPairs w = [] := by
      apply List.filter_eq_nil.mpr
      intro p hp
      simp only [decide_eq_true_eq]
      exact not_lt.mpr (hall p hp)
    have hrb : rebuildWeightTable ⟨w, [], [], true⟩ = ⟨w, [], [], false⟩ := by
      simp [rebuildWeightTable, rebuildAux_eq w 0, hpp, cumList]
    simp [selectFromWeights, SelectWeighted, hrb]

/-- Witness for C1 at the concrete map `[("a",1), ("b",3)]`: the event
drawing `"b"` has measure `3/4` of the unit interval. -/
theorem scoring_C1_witness :
    (weightsEx.map Prod.fst).Nodup ∧
      volume {u : ℝ | u ∈ Set.Ico (0 : ℝ) 1 ∧ selectFromWeights weightsEx u = "b"} =
        ENNReal.ofReal (3 / posTotal weightsEx) :=
  ⟨by decide, (scoring_C1 weightsEx (by decide)).2.1 "b" 3
    (List.mem_cons_of_mem _ (List.mem_cons_self _ _)) (by norm_num)⟩

end SyzScoring
